import Mathlib

/-!
# git2txt — file-selection and aggregation pipeline, shallow embedding

This development embeds the `processFiles` / `processDirectory` pipeline of
git2txt (`index.js`) into Lean and proves the specification's claims about it.

Modelling conventions:
* The filesystem tree handed to `processFiles` is a value of the mutual
  inductive `FsEntry` / `FsEntries`.  A file carries the results the Node
  I/O calls would return for it: `fs.stat` size, the `isBinaryFile` probe
  result, the decoded `utf8` content of `fs.readFile`, and an optional marker
  saying which of those three calls throws.  A directory carries a `listable`
  flag (`false` means `fs.readdir` on it throws) and its children; an `other`
  entry is one for which both `isDirectory()` and `isFile()` are false.
* JS strings are modelled as Lean `String` viewed as its list of characters
  (`String.data`); `String.slice` on UTF-16 units becomes `List.take` on
  characters.
* The mutable `output` string is modelled as the list of chunks the code
  appends (`OutputItem`), and the aggregated text is the concatenation of the
  rendered chunks (`aggregatedText`), which equals the string the code builds.
* Thrown exceptions are modelled with `Except Unit`.
-/

namespace Git2txt

/-! ## File data and filesystem trees -/

/-- Which of the per-file I/O calls of the processing loop throws:
`fs.stat`, `isBinaryFile`, or `fs.readFile`. -/
inductive FileErr where
  | statE
  | probeE
  | readE
deriving DecidableEq, Repr

/-- The observable behaviour of one on-disk file: its `fs.stat` size in bytes,
the `isBinaryFile` probe result, the `utf8`-decoded content `fs.readFile`
returns, and an optional marker for the one I/O call that throws. -/
structure FileData where
  size : Nat
  binary : Bool
  content : String
  err : Option FileErr
deriving DecidableEq, Repr

mutual
/-- One `fs.Dirent` of a directory listing. -/
inductive FsEntry where
  | file (name : String) (data : FileData)
  | dir (name : String) (listable : Bool) (children : FsEntries)
  | other (name : String)
/-- A directory listing (`fs.readdir(dir, { withFileTypes: true })`). -/
inductive FsEntries where
  | nil
  | cons (head : FsEntry) (tail : FsEntries)
end

/-- Build an `FsEntries` listing from a Lean list literal. -/
def FsEntries.ofList : List FsEntry → FsEntries
  | [] => .nil
  | e :: es => .cons e (FsEntries.ofList es)

/-! ## Processing options

`processFiles(directory, options)` receives the flags parsed by the CLI.
The code derives `thresholdBytes = options.threshold * 1024 * 1024` from the
megabyte flag (a JS float); the model keeps the byte threshold as its own
field `thresholdBytes`, alongside the megabyte figure `thresholdMB` that the
truncation marker text interpolates. -/
structure Options where
  thresholdMB : Nat
  thresholdBytes : Nat
  includeAll : Bool
  truncate : Bool
  maxFiles : Nat
  ignorePatterns : List String
deriving Repr

/-! ## Model of the external `minimatch` glob matcher

`processDirectory` calls `minimatch(relativePath, pattern)` from the
`minimatch` npm package.  Modelled from the spec: standard glob semantics
(`*`, `?`, `**`), i.e. the library's `matchOne` on `/`-separated segments
with default options (`dot:false`, no extglob/brace/class patterns, which no
pattern in this development uses).  The functions take a fuel argument so
that they are structurally recursive; every recursive call strictly decreases
the fuel measure used at the call sites, so the fuel never runs out there. -/

/-- Character-level glob match of one pattern segment against one path
segment: `*` matches any run of characters, `?` any single character,
everything else literally. -/
def segMatchF : Nat → List Char → List Char → Bool
  | 0, _, _ => false
  | _ + 1, [], [] => true
  | _ + 1, [], _ :: _ => false
  | fuel + 1, '*' :: ps, cs =>
      segMatchF fuel ps cs ||
        match cs with
        | [] => false
        | _ :: cs => segMatchF fuel ('*' :: ps) cs
  | _ + 1, '?' :: _, [] => false
  | fuel + 1, '?' :: ps, _ :: cs => segMatchF fuel ps cs
  | _ + 1, _ :: _, [] => false
  | fuel + 1, p :: ps, c :: cs => p == c && segMatchF fuel ps cs

/-- Does a pattern segment contain a wildcard?  (A non-literal segment never
matches a path segment starting with `.` under `dot:false`.) -/
def segHasWildcard (p : List Char) : Bool :=
  p.contains '*' || p.contains '?'

/-- Does a path segment start with a dot? -/
def segIsDotted (f : List Char) : Bool :=
  match f with
  | '.' :: _ => true
  | _ => false

mutual
/-- The library's `matchOne` over `/`-separated segments: walk file and
pattern segments in step; a `**` segment swallows zero or more non-dotted
file segments; when the pattern is exhausted the file must be exhausted too
(up to one trailing empty segment); a file exhausted before the pattern
does not match (`partial` is false). -/
def matchSegsF : Nat → List (List Char) → List (List Char) → Bool
  | 0, _, _ => false
  | _ + 1, [], [] => true
  | _ + 1, f :: fs, [] => decide (f = []) && decide (fs = [])
  | _ + 1, [], _ :: _ => false
  | fuel + 1, f :: fs, p :: ps =>
      if p = ['*', '*'] then
        if ps = [] then (f :: fs).all fun s => !segIsDotted s
        else globstarF fuel (f :: fs) ps
      else
        (if segHasWildcard p && segIsDotted f then false
         else segMatchF (p.length + f.length + 1) p f) &&
        matchSegsF fuel fs ps
/-- The `**` loop: try to match the rest of the pattern here, else swallow
one non-dotted file segment and repeat. -/
def globstarF : Nat → List (List Char) → List (List Char) → Bool
  | 0, _, _ => false
  | fuel + 1, fs, ps =>
      matchSegsF fuel fs ps ||
        match fs with
        | [] => false
        | f :: fs => !segIsDotted f && globstarF fuel fs ps
end

/-- Split a character list on a separator character (used with `/` for the
glob segment split, and with a newline to read the aggregate line by
line). -/
def splitOnChar (sep : Char) : List Char → List (List Char)
  | [] => [[]]
  | c :: rest =>
      if c = sep then [] :: splitOnChar sep rest
      else
        match splitOnChar sep rest with
        | [] => [[c]]
        | h :: t => (c :: h) :: t

/-- Split a character list on `/` (the segment split both path and pattern
undergo before `matchOne`). -/
def splitSlash (l : List Char) : List (List Char) :=
  splitOnChar '/' l

/-- `minimatch(target, pattern)` of the `minimatch` npm package, restricted
to the glob features exercised by this development. -/
def minimatch (target pattern : String) : Bool :=
  let fs := splitSlash target.data
  let ps := splitSlash pattern.data
  matchSegsF (2 * (fs.length + ps.length) + 2) fs ps

/-- `options.ignorePatterns.some(pattern => minimatch(relativePath, pattern))`. -/
def isIgnored (opts : Options) (rel : String) : Bool :=
  opts.ignorePatterns.any fun pattern => minimatch rel pattern

/-! ## Output -/

/-- Model of the external `filesize` formatter (`filesize(n)` with default
options, base 10, at most two decimals).  Modelled from the spec: the header
shows "a human-readable size".  It is exact for sizes below 1000 bytes —
every size this development evaluates concretely. -/
def formatScaled (n unit : Nat) : String :=
  let c := (n * 100 + unit / 2) / unit
  let ip := c / 100
  let fp := c % 100
  if fp = 0 then toString ip
  else if fp % 10 = 0 then toString ip ++ "." ++ toString (fp / 10)
  else toString ip ++ "." ++ (if fp < 10 then "0" else "") ++ toString fp

/-- `formatFileSize(n)`: `"5 B"`, `"1.5 kB"`, … -/
def formatFileSize (n : Nat) : String :=
  if n < 1000 then toString n ++ " B"
  else if n < 1000000 then formatScaled n 1000 ++ " kB"
  else if n < 1000000000 then formatScaled n 1000000 ++ " MB"
  else formatScaled n 1000000000 ++ " GB"

/-- One chunk appended to the mutable `output` string:
a processed file's fragment, the one-time max-files cutoff marker, a
directory header, or the final omitted-files summary. -/
inductive OutputItem where
  | fileFrag (relPath : String) (size : Nat) (content : String)
  | cutoffMarker (relPath : String) (size : Nat)
  | dirHeader (relPath : String)
  | summary (omitted : Nat)
deriving DecidableEq, Repr

/-- The exact string each chunk contributes to `output` (concatenation is
associative, so the splits below only group the template pieces). -/
def renderItem : OutputItem → String
  | .fileFrag rel size content =>
      "\n" ++ "**** File: " ++ rel ++ ", size: " ++ formatFileSize size ++
        "\n" ++ "\n" ++ content ++ "\n"
  | .cutoffMarker rel size =>
      "\n" ++ "**** File: " ++ rel ++ ", size: " ++ formatFileSize size ++ "\n" ++
        "This file and all following files were omitted due to max-files limit.\n"
  | .dirHeader rel =>
      "\n" ++ "**** Directory: " ++ rel
  | .summary omitted =>
      "\n" ++ "\n" ++ "Total " ++ toString omitted ++
        " files were omitted due to the maxFiles limit\n"

/-- The aggregated text: the concatenation, in order, of every chunk the run
appended to `output`. -/
def aggregatedText (items : List OutputItem) : String :=
  String.join (items.map renderItem)

/-! ## The walker -/

/-- The mutable state of one `processFiles` run: the appended output chunks
and the `processedFiles` / `skippedFiles` / `omittedFiles` counters. -/
structure WalkState where
  output : List OutputItem
  processed : Nat
  skipped : Nat
  omitted : Nat
deriving DecidableEq, Repr

def initialState : WalkState := ⟨[], 0, 0, 0⟩

def addItem (st : WalkState) (i : OutputItem) : WalkState :=
  { st with output := st.output ++ [i] }

/-- `path.relative(directory, path.join(dir, name))`: the path of an entry
relative to the traversal root, given its parent's relative path. -/
def joinRel (dirRel name : String) : String :=
  if dirRel = "" then name else dirRel ++ "/" ++ name

/-- The branch the per-file body of the first `processDirectory` loop takes
for one file entry (each branch is a distinct code path with its own debug
message). -/
inductive Outcome where
  | skipLarge
  | skipBinary
  | skipIgnored
  | skipError
  | omitted
  | processed (content : String)
deriving DecidableEq, Repr

/-- The content emitted for a processed file: truncated to the first
`thresholdBytes` UTF-16 units plus the truncation marker when `--truncate`
is on and the file is oversized, the full content otherwise. -/
def finalContent (opts : Options) (fd : FileData) : String :=
  if opts.truncate ∧ fd.size > opts.thresholdBytes then
    String.mk (fd.content.data.take opts.thresholdBytes) ++
      "\n\n[Truncated: File size exceeds " ++ toString opts.thresholdMB ++ " MB]\n"
  else fd.content

/-- The check sequence of the per-file body, in source order: `fs.stat`
(throw → catch), the size check, the `isBinaryFile` probe (throw → catch,
run only when `includeAll` is false), the ignore-pattern check, `fs.readFile`
(throw → catch), the max-files cutoff, then emission (truncating if asked).
`pastCutoff` is `options.maxFiles && processedFiles >= options.maxFiles`. -/
def classify (opts : Options) (rel : String) (fd : FileData)
    (pastCutoff : Bool) : Outcome :=
  if fd.err = some .statE then .skipError
  else if ¬opts.includeAll ∧ fd.size > opts.thresholdBytes ∧ ¬opts.truncate then
    .skipLarge
  else if ¬opts.includeAll ∧ fd.err = some .probeE then .skipError
  else if ¬opts.includeAll ∧ fd.binary then .skipBinary
  else if isIgnored opts rel then .skipIgnored
  else if fd.err = some .readE then .skipError
  else if pastCutoff then .omitted
  else .processed (finalContent opts fd)

/-- The state update for one file entry of the first loop: a skip increments
`skippedFiles`; an omission increments `omittedFiles` and, when it is the
first one, appends the cutoff marker for that file; otherwise the fragment is
appended and `processedFiles` incremented. -/
def stepFile (opts : Options) (rel : String) (fd : FileData)
    (st : WalkState) : WalkState :=
  match classify opts rel fd
      (decide (opts.maxFiles ≠ 0) && decide (st.processed ≥ opts.maxFiles)) with
  | .skipLarge | .skipBinary | .skipIgnored | .skipError =>
      { st with skipped := st.skipped + 1 }
  | .omitted =>
      let st := { st with omitted := st.omitted + 1 }
      if st.omitted = 1 then addItem st (.cutoffMarker rel fd.size) else st
  | .processed c =>
      { addItem st (.fileFrag rel fd.size c) with processed := st.processed + 1 }

/-- The first loop of `processDirectory`: every file entry of the listing is
handled in order; directories and non-file entries are passed over. -/
def filesPhase (opts : Options) (dirRel : String) :
    FsEntries → WalkState → WalkState
  | .nil, st => st
  | .cons (.file name fd) rest, st =>
      filesPhase opts dirRel rest (stepFile opts (joinRel dirRel name) fd st)
  | .cons (.dir _ _ _) rest, st => filesPhase opts dirRel rest st
  | .cons (.other _) rest, st => filesPhase opts dirRel rest st

mutual
/-- The second loop of `processDirectory`: for each directory entry, check
its ignore status, emit its header, and recurse (an unlistable directory
makes the recursive `fs.readdir` throw, which propagates). -/
def subdirsPhase (opts : Options) (dirRel : String) :
    FsEntries → WalkState → Except Unit WalkState
  | .nil, st => .ok st
  | .cons e rest, st =>
      match subdirStep opts dirRel e st with
      | .error u => .error u
      | .ok st => subdirsPhase opts dirRel rest st
/-- One entry of the second loop: files and non-files are skipped; an
ignored directory is skipped before anything is emitted; otherwise its
header is appended and `processDirectory` runs on it (first its files,
then its subdirectories). -/
def subdirStep (opts : Options) (dirRel : String) :
    FsEntry → WalkState → Except Unit WalkState
  | .file _ _, st => .ok st
  | .other _, st => .ok st
  | .dir name listable children, st =>
      let rel := joinRel dirRel name
      if isIgnored opts rel then .ok st
      else
        let st := addItem st (.dirHeader rel)
        if listable then
          subdirsPhase opts rel children (filesPhase opts rel children st)
        else .error ()
end

/-- `processDirectory(dir)`: files first, then subdirectories. -/
def processDirectory (opts : Options) (dirRel : String) (entries : FsEntries)
    (st : WalkState) : Except Unit WalkState :=
  subdirsPhase opts dirRel entries (filesPhase opts dirRel entries st)

/-- The result `processFiles` hands back: the aggregated output and the
summary counters. -/
structure RunResult where
  output : List OutputItem
  processed : Nat
  skipped : Nat
  omitted : Nat
deriving DecidableEq, Repr

/-- `processFiles(directory, options)`: list the root (`none` models a root
whose `fs.readdir` throws), walk the tree, and append the omitted-files
summary when any file was omitted.  A directory-listing error anywhere in
the walk propagates out of `processDirectory` and fails the run. -/
def processFiles (opts : Options) (root : Option FsEntries) :
    Except Unit RunResult :=
  match root with
  | none => .error ()
  | some entries =>
      match processDirectory opts "" entries initialState with
      | .error u => .error u
      | .ok st =>
          let st := if st.omitted > 0 then addItem st (.summary st.omitted) else st
          .ok ⟨st.output, st.processed, st.skipped, st.omitted⟩

/-! ## Pure tree measures

These recursions mirror the walker's traversal: a level's file entries, then
the subtrees of its non-ignored directory entries. -/

/-- The file entries of one directory listing. -/
def countFilesLevel : FsEntries → Nat
  | .nil => 0
  | .cons (.file _ _) rest => countFilesLevel rest + 1
  | .cons (.dir _ _ _) rest => countFilesLevel rest
  | .cons (.other _) rest => countFilesLevel rest

mutual
/-- File entries inside the subtrees of the non-ignored directory entries of
a listing. -/
def dirsFilesCount (opts : Options) (dirRel : String) : FsEntries → Nat
  | .nil => 0
  | .cons e rest =>
      dirsFilesCountEntry opts dirRel e + dirsFilesCount opts dirRel rest
def dirsFilesCountEntry (opts : Options) (dirRel : String) : FsEntry → Nat
  | .file _ _ => 0
  | .other _ => 0
  | .dir name _ children =>
      if isIgnored opts (joinRel dirRel name) then 0
      else countFilesLevel children +
        dirsFilesCount opts (joinRel dirRel name) children
end

/-- All file entries the walker visits below a directory with relative path
`dirRel` and listing `es`: the level's own files plus the non-pruned
subtrees'. -/
def countVisitedFiles (opts : Options) (dirRel : String) (es : FsEntries) : Nat :=
  countFilesLevel es + dirsFilesCount opts dirRel es

/-- Visited file entries of a whole run. -/
def countVisitedFilesRoot (opts : Options) : Option FsEntries → Nat
  | none => 0
  | some es => countVisitedFiles opts "" es

/-- A file is eligible when the check sequence lets it through to emission:
not skipped for size, binary status, an ignore pattern, or an I/O error.
Eligibility does not depend on the cutoff state. -/
def eligibleFile (opts : Options) (rel : String) (fd : FileData) : Bool :=
  match classify opts rel fd false with
  | .processed _ => true
  | _ => false

/-- Eligible files of one directory listing. -/
def eligibleLevel (opts : Options) (dirRel : String) : FsEntries → Nat
  | .nil => 0
  | .cons (.file name fd) rest =>
      (if eligibleFile opts (joinRel dirRel name) fd then 1 else 0) +
        eligibleLevel opts dirRel rest
  | .cons (.dir _ _ _) rest => eligibleLevel opts dirRel rest
  | .cons (.other _) rest => eligibleLevel opts dirRel rest

mutual
/-- Eligible files inside the subtrees of the non-ignored directory entries
of a listing. -/
def dirsEligCount (opts : Options) (dirRel : String) : FsEntries → Nat
  | .nil => 0
  | .cons e rest =>
      dirsEligCountEntry opts dirRel e + dirsEligCount opts dirRel rest
def dirsEligCountEntry (opts : Options) (dirRel : String) : FsEntry → Nat
  | .file _ _ => 0
  | .other _ => 0
  | .dir name _ children =>
      if isIgnored opts (joinRel dirRel name) then 0
      else eligibleLevel opts (joinRel dirRel name) children +
        dirsEligCount opts (joinRel dirRel name) children
end

/-- All eligible files the walker visits below a directory. -/
def eligibleCount (opts : Options) (dirRel : String) (es : FsEntries) : Nat :=
  eligibleLevel opts dirRel es + dirsEligCount opts dirRel es

/-- Eligible files of a whole run. -/
def eligibleCountRoot (opts : Options) : Option FsEntries → Nat
  | none => 0
  | some es => eligibleCount opts "" es

mutual
/-- Is `fs.readdir` going to succeed on every directory the walker enters
below this listing?  (Pruned subtrees are never entered.) -/
def dirsListable (opts : Options) (dirRel : String) : FsEntries → Bool
  | .nil => true
  | .cons e rest =>
      dirsListableEntry opts dirRel e && dirsListable opts dirRel rest
def dirsListableEntry (opts : Options) (dirRel : String) : FsEntry → Bool
  | .file _ _ => true
  | .other _ => true
  | .dir name listable children =>
      if isIgnored opts (joinRel dirRel name) then true
      else listable && dirsListable opts (joinRel dirRel name) children
end

/-- Every directory the whole run enters is listable (the root included). -/
def allListableRoot (opts : Options) : Option FsEntries → Bool
  | none => false
  | some es => dirsListable opts "" es

mutual
/-- Relative paths of the non-ignored directory entries the walker
encounters below a listing, in traversal order. -/
def visitedDirs (opts : Options) (dirRel : String) : FsEntries → List String
  | .nil => []
  | .cons e rest =>
      visitedDirsEntry opts dirRel e ++ visitedDirs opts dirRel rest
def visitedDirsEntry (opts : Options) (dirRel : String) : FsEntry → List String
  | .file _ _ => []
  | .other _ => []
  | .dir name _ children =>
      if isIgnored opts (joinRel dirRel name) then []
      else joinRel dirRel name ::
        visitedDirs opts (joinRel dirRel name) children
end

/-- Non-ignored directories encountered by a whole run. -/
def visitedDirsRoot (opts : Options) : Option FsEntries → List String
  | none => []
  | some es => visitedDirs opts "" es

/-! ## Output-item counters -/

/-- Is this chunk a per-file content fragment? -/
def isFrag : OutputItem → Bool
  | .fileFrag _ _ _ => true
  | _ => false

/-- Is this chunk the cutoff marker? -/
def isCutoff : OutputItem → Bool
  | .cutoffMarker _ _ => true
  | _ => false

/-- Is this chunk emitted by the per-file loop (fragment or cutoff marker)? -/
def isFileItem : OutputItem → Bool
  | .fileFrag _ _ _ => true
  | .cutoffMarker _ _ => true
  | _ => false

/-- The `(relativePath, renderedSize)` pairs of the per-file fragments of an
output, in order — what a lossless parse of the aggregate must recover. -/
def fragPairs (items : List OutputItem) : List (String × String) :=
  items.filterMap fun i =>
    match i with
    | .fileFrag p sz _ => some (p, formatFileSize sz)
    | _ => none

/-- Is this chunk a directory header? -/
def isDirHead : OutputItem → Bool
  | .dirHeader _ => true
  | _ => false

/-- Chunks the walk itself can append (everything except the summary). -/
def isWalkItem (i : OutputItem) : Bool :=
  isFileItem i || isDirHead i

/-- Number of per-file fragments in an output. -/
def fragCount (items : List OutputItem) : Nat :=
  items.countP fun i => isFrag i

/-- Number of cutoff markers in an output. -/
def cutCount (items : List OutputItem) : Nat :=
  items.countP fun i => isCutoff i

/-! ## Per-file step lemmas -/

theorem classify_processed_content (opts : Options) (rel : String)
    (fd : FileData) (pc : Bool) (c : String)
    (h : classify opts rel fd pc = .processed c) : c = finalContent opts fd := by
  unfold classify at h
  split_ifs at h <;> simp_all

theorem classify_false_ne_omitted (opts : Options) (rel : String)
    (fd : FileData) : classify opts rel fd false ≠ .omitted := by
  unfold classify
  split_ifs <;> simp_all

theorem classify_false_of_eligible (opts : Options) (rel : String)
    (fd : FileData) (h : eligibleFile opts rel fd = true) :
    classify opts rel fd false = .processed (finalContent opts fd) := by
  unfold eligibleFile at h
  rcases hc : classify opts rel fd false with _ | _ | _ | _ | _ | c <;>
    rw [hc] at h <;> simp at h
  rw [classify_processed_content opts rel fd false c hc]

theorem classify_true_of_eligible (opts : Options) (rel : String)
    (fd : FileData) (h : eligibleFile opts rel fd = true) :
    classify opts rel fd true = .omitted := by
  have h' := classify_false_of_eligible opts rel fd h
  unfold classify at h' ⊢
  split_ifs at h' ⊢ <;> simp_all

theorem classify_of_ineligible (opts : Options) (rel : String)
    (fd : FileData) (pc : Bool) (h : eligibleFile opts rel fd = false) :
    classify opts rel fd pc = classify opts rel fd false := by
  unfold eligibleFile at h
  unfold classify at h ⊢
  split_ifs at h ⊢ <;> simp_all

/-- An ineligible file is always counted skipped, whatever the cutoff
state, and nothing is emitted for it. -/
theorem stepFile_of_ineligible (opts : Options) (rel : String) (fd : FileData)
    (st : WalkState) (h : eligibleFile opts rel fd = false) :
    stepFile opts rel fd st = { st with skipped := st.skipped + 1 } := by
  unfold stepFile
  rw [classify_of_ineligible opts rel fd _ h]
  have hno := classify_false_ne_omitted opts rel fd
  have hnp : ∀ c, classify opts rel fd false ≠ .processed c := by
    intro c hc
    unfold eligibleFile at h
    rw [hc] at h
    simp at h
  rcases hc : classify opts rel fd false with _ | _ | _ | _ | _ | c <;> simp_all

/-- An eligible file before the cutoff is emitted and counted processed. -/
theorem stepFile_of_eligible_before (opts : Options) (rel : String)
    (fd : FileData) (st : WalkState) (h : eligibleFile opts rel fd = true)
    (hpc : opts.maxFiles = 0 ∨ st.processed < opts.maxFiles) :
    stepFile opts rel fd st =
      { addItem st (.fileFrag rel fd.size (finalContent opts fd)) with
          processed := st.processed + 1 } := by
  unfold stepFile
  have hb : (decide (opts.maxFiles ≠ 0) && decide (st.processed ≥ opts.maxFiles)) = false := by
    rcases hpc with h0 | hlt
    · simp [h0]
    · have hn : ¬ st.processed ≥ opts.maxFiles := Nat.not_le.mpr hlt
      simp [hn]
  rw [hb, classify_false_of_eligible opts rel fd h]

/-- An eligible file past the cutoff is only counted omitted; the first one
also appends the cutoff marker for itself. -/
theorem stepFile_of_first_omit (opts : Options) (rel : String) (fd : FileData)
    (st : WalkState) (h : eligibleFile opts rel fd = true)
    (hN : opts.maxFiles ≠ 0) (hge : st.processed ≥ opts.maxFiles)
    (h0 : st.omitted = 0) :
    stepFile opts rel fd st =
      addItem { st with omitted := 1 } (.cutoffMarker rel fd.size) := by
  unfold stepFile
  have hb : (decide (opts.maxFiles ≠ 0) && decide (st.processed ≥ opts.maxFiles)) = true := by
    simp [hN, hge]
  rw [hb, classify_true_of_eligible opts rel fd h]
  simp [h0]

/-- Later omitted files change only the `omittedFiles` counter. -/
theorem stepFile_of_later_omit (opts : Options) (rel : String) (fd : FileData)
    (st : WalkState) (h : eligibleFile opts rel fd = true)
    (hN : opts.maxFiles ≠ 0) (hge : st.processed ≥ opts.maxFiles)
    (h0 : st.omitted ≠ 0) :
    stepFile opts rel fd st = { st with omitted := st.omitted + 1 } := by
  unfold stepFile
  have hb : (decide (opts.maxFiles ≠ 0) && decide (st.processed ≥ opts.maxFiles)) = true := by
    simp [hN, hge]
  rw [hb, classify_true_of_eligible opts rel fd h]
  simp [h0]

/-- Every file entry increments exactly one of the three counters. -/
theorem stepFile_sum (opts : Options) (rel : String) (fd : FileData)
    (st : WalkState) :
    (stepFile opts rel fd st).processed + (stepFile opts rel fd st).skipped +
        (stepFile opts rel fd st).omitted =
      st.processed + st.skipped + st.omitted + 1 := by
  unfold stepFile
  rcases hc : classify opts rel fd
      (decide (opts.maxFiles ≠ 0) && decide (st.processed ≥ opts.maxFiles)) with
    _ | _ | _ | _ | _ | c <;> simp [addItem] <;> try omega
  split <;> simp [addItem] <;> omega

/-- A file entry appends only per-file chunks, at the end of the output. -/
theorem stepFile_output (opts : Options) (rel : String) (fd : FileData)
    (st : WalkState) :
    ∃ ext, (stepFile opts rel fd st).output = st.output ++ ext ∧
      ∀ i ∈ ext, isFileItem i = true := by
  unfold stepFile
  rcases hc : classify opts rel fd
      (decide (opts.maxFiles ≠ 0) && decide (st.processed ≥ opts.maxFiles)) with
    _ | _ | _ | _ | _ | c
  · exact ⟨[], by simp⟩
  · exact ⟨[], by simp⟩
  · exact ⟨[], by simp⟩
  · exact ⟨[], by simp⟩
  · simp only []
    split
    · exact ⟨[.cutoffMarker rel fd.size], by simp [addItem, isFileItem]⟩
    · exact ⟨[], by simp⟩
  · exact ⟨[.fileFrag rel fd.size c], by simp [addItem, isFileItem]⟩

/-- Fragments appended so far always equal the processed counter's growth. -/
theorem stepFile_frag (opts : Options) (rel : String) (fd : FileData)
    (st : WalkState) :
    fragCount (stepFile opts rel fd st).output + st.processed =
      fragCount st.output + (stepFile opts rel fd st).processed := by
  unfold stepFile
  rcases hc : classify opts rel fd
      (decide (opts.maxFiles ≠ 0) && decide (st.processed ≥ opts.maxFiles)) with
    _ | _ | _ | _ | _ | c <;>
      simp [fragCount, addItem, List.countP_append, isFrag] <;> try omega
  split <;> simp [fragCount, addItem, List.countP_append, isFrag, isCutoff]

/-- The cutoff marker count tracks `min omittedFiles 1`. -/
theorem stepFile_cut (opts : Options) (rel : String) (fd : FileData)
    (st : WalkState) (h : cutCount st.output = min st.omitted 1) :
    cutCount (stepFile opts rel fd st).output =
      min (stepFile opts rel fd st).omitted 1 := by
  unfold stepFile
  rcases hc : classify opts rel fd
      (decide (opts.maxFiles ≠ 0) && decide (st.processed ≥ opts.maxFiles)) with
    _ | _ | _ | _ | _ | c <;>
      simp [cutCount, addItem, List.countP_append, isCutoff] at h ⊢ <;> try omega
  split <;>
    simp_all [cutCount, addItem, List.countP_append, isCutoff] <;> omega

/-- The processed counter never exceeds a nonzero `maxFiles`. -/
theorem stepFile_le_max (opts : Options) (rel : String) (fd : FileData)
    (st : WalkState) (hN : opts.maxFiles ≠ 0)
    (h : st.processed ≤ opts.maxFiles) :
    (stepFile opts rel fd st).processed ≤ opts.maxFiles := by
  unfold stepFile
  rcases hc : classify opts rel fd
      (decide (opts.maxFiles ≠ 0) && decide (st.processed ≥ opts.maxFiles)) with
    _ | _ | _ | _ | _ | c <;> simp [addItem] <;> try omega
  · split <;> simp [addItem] <;> omega
  · rcases Nat.lt_or_ge st.processed opts.maxFiles with hlt | hge
    · omega
    · exfalso
      have hb : (decide (opts.maxFiles ≠ 0) && decide (st.processed ≥ opts.maxFiles)) = true := by
        simp [hN, hge]
      rw [hb] at hc
      rcases hb2 : eligibleFile opts rel fd with _ | _
      · rw [classify_of_ineligible opts rel fd _ hb2] at hc
        unfold eligibleFile at hb2
        rw [hc] at hb2
        simp at hb2
      · rw [classify_true_of_eligible opts rel fd hb2] at hc
        simp at hc

/-! ## First-loop (files) lemmas -/

/-- The first loop increments the counters once per file entry of the
listing. -/
theorem filesPhase_sum (opts : Options) (dirRel : String) (es : FsEntries)
    (st : WalkState) :
    (filesPhase opts dirRel es st).processed +
        (filesPhase opts dirRel es st).skipped +
        (filesPhase opts dirRel es st).omitted =
      st.processed + st.skipped + st.omitted + countFilesLevel es := by
  cases es with
  | nil => simp [filesPhase, countFilesLevel]
  | cons e rest =>
    cases e with
    | file name fd =>
      have ih := filesPhase_sum opts dirRel rest
        (stepFile opts (joinRel dirRel name) fd st)
      have hs := stepFile_sum opts (joinRel dirRel name) fd st
      simp only [filesPhase, countFilesLevel]
      omega
    | dir name listable children =>
      have ih := filesPhase_sum opts dirRel rest st
      simp only [filesPhase, countFilesLevel]
      omega
    | other name =>
      have ih := filesPhase_sum opts dirRel rest st
      simp only [filesPhase, countFilesLevel]
      omega

/-- The first loop appends only per-file chunks. -/
theorem filesPhase_output (opts : Options) (dirRel : String) (es : FsEntries)
    (st : WalkState) :
    ∃ ext, (filesPhase opts dirRel es st).output = st.output ++ ext ∧
      ∀ i ∈ ext, isFileItem i = true := by
  cases es with
  | nil => exact ⟨[], by simp [filesPhase]⟩
  | cons e rest =>
    cases e with
    | file name fd =>
      obtain ⟨e1, he1, hall1⟩ := stepFile_output opts (joinRel dirRel name) fd st
      obtain ⟨e2, he2, hall2⟩ := filesPhase_output opts dirRel rest
        (stepFile opts (joinRel dirRel name) fd st)
      refine ⟨e1 ++ e2, ?_, ?_⟩
      · simp only [filesPhase]
        rw [he2, he1, List.append_assoc]
      · intro i hi
        rcases List.mem_append.mp hi with hi | hi
        · exact hall1 i hi
        · exact hall2 i hi
    | dir name listable children =>
      simpa only [filesPhase] using filesPhase_output opts dirRel rest st
    | other name =>
      simpa only [filesPhase] using filesPhase_output opts dirRel rest st

/-- Fragment count growth equals processed-counter growth over the first
loop. -/
theorem filesPhase_frag (opts : Options) (dirRel : String) (es : FsEntries)
    (st : WalkState) :
    fragCount (filesPhase opts dirRel es st).output + st.processed =
      fragCount st.output + (filesPhase opts dirRel es st).processed := by
  cases es with
  | nil => simp [filesPhase]
  | cons e rest =>
    cases e with
    | file name fd =>
      have ih := filesPhase_frag opts dirRel rest
        (stepFile opts (joinRel dirRel name) fd st)
      have hs := stepFile_frag opts (joinRel dirRel name) fd st
      simp only [filesPhase]
      omega
    | dir name listable children =>
      simpa only [filesPhase] using filesPhase_frag opts dirRel rest st
    | other name =>
      simpa only [filesPhase] using filesPhase_frag opts dirRel rest st

/-- The cutoff-marker invariant is preserved by the first loop. -/
theorem filesPhase_cut (opts : Options) (dirRel : String) (es : FsEntries)
    (st : WalkState) (h : cutCount st.output = min st.omitted 1) :
    cutCount (filesPhase opts dirRel es st).output =
      min (filesPhase opts dirRel es st).omitted 1 := by
  cases es with
  | nil => simpa [filesPhase] using h
  | cons e rest =>
    cases e with
    | file name fd =>
      have hs := stepFile_cut opts (joinRel dirRel name) fd st h
      simpa only [filesPhase] using
        filesPhase_cut opts dirRel rest (stepFile opts (joinRel dirRel name) fd st) hs
    | dir name listable children =>
      simpa only [filesPhase] using filesPhase_cut opts dirRel rest st h
    | other name =>
      simpa only [filesPhase] using filesPhase_cut opts dirRel rest st h

/-! ## Second-loop (subdirectories) lemmas -/

mutual
/-- Counter growth over the second loop: one per visited file of the
non-pruned subtrees. -/
theorem subdirsPhase_sum (opts : Options) (dirRel : String) (es : FsEntries)
    (st st' : WalkState) (h : subdirsPhase opts dirRel es st = .ok st') :
    st'.processed + st'.skipped + st'.omitted =
      st.processed + st.skipped + st.omitted + dirsFilesCount opts dirRel es := by
  cases es with
  | nil =>
    simp only [subdirsPhase, Except.ok.injEq] at h
    subst h
    simp [dirsFilesCount]
  | cons e rest =>
    rcases he : subdirStep opts dirRel e st with u | st1 <;>
      simp only [subdirsPhase] at h <;> rw [he] at h
    · simp at h
    · have h1 := subdirStep_sum opts dirRel e st st1 he
      have h2 := subdirsPhase_sum opts dirRel rest st1 st' h
      simp only [dirsFilesCount]
      omega
/-- Counter growth over one entry of the second loop. -/
theorem subdirStep_sum (opts : Options) (dirRel : String) (e : FsEntry)
    (st st' : WalkState) (h : subdirStep opts dirRel e st = .ok st') :
    st'.processed + st'.skipped + st'.omitted =
      st.processed + st.skipped + st.omitted + dirsFilesCountEntry opts dirRel e := by
  cases e with
  | file name fd =>
    simp only [subdirStep, Except.ok.injEq] at h
    subst h
    simp [dirsFilesCountEntry]
  | other name =>
    simp only [subdirStep, Except.ok.injEq] at h
    subst h
    simp [dirsFilesCountEntry]
  | dir name listable children =>
    simp only [subdirStep] at h
    by_cases hig : isIgnored opts (joinRel dirRel name) = true
    · rw [if_pos hig] at h
      simp only [Except.ok.injEq] at h
      subst h
      simp [dirsFilesCountEntry, hig]
    · rw [if_neg hig] at h
      cases listable with
      | false => simp at h
      | true =>
        simp only [if_pos rfl] at h
        have h2 := subdirsPhase_sum opts (joinRel dirRel name) children
          (filesPhase opts (joinRel dirRel name) children
            (addItem st (.dirHeader (joinRel dirRel name)))) st' h
        have h1 := filesPhase_sum opts (joinRel dirRel name) children
          (addItem st (.dirHeader (joinRel dirRel name)))
        simp only [dirsFilesCountEntry, if_neg hig]
        simp only [addItem] at h1 h2 ⊢
        omega
end

/-- The first loop processes eligible files up to `maxFiles` and counts the
rest omitted (when `maxFiles` is nonzero). -/
theorem filesPhase_max (opts : Options) (dirRel : String) (es : FsEntries)
    (st : WalkState) (hN : opts.maxFiles ≠ 0)
    (hle : st.processed ≤ opts.maxFiles) :
    (filesPhase opts dirRel es st).processed =
        min opts.maxFiles (st.processed + eligibleLevel opts dirRel es) ∧
      (filesPhase opts dirRel es st).omitted =
        st.omitted + (st.processed + eligibleLevel opts dirRel es -
          min opts.maxFiles (st.processed + eligibleLevel opts dirRel es)) := by
  cases es with
  | nil =>
    simp only [filesPhase, eligibleLevel]
    omega
  | cons e rest =>
    cases e with
    | file name fd =>
      by_cases helig : eligibleFile opts (joinRel dirRel name) fd = true
      · by_cases hlt : st.processed < opts.maxFiles
        · rw [show filesPhase opts dirRel (.cons (.file name fd) rest) st =
              filesPhase opts dirRel rest (stepFile opts (joinRel dirRel name) fd st)
            from rfl]
          rw [stepFile_of_eligible_before opts (joinRel dirRel name) fd st helig
            (Or.inr hlt)]
          have ih := filesPhase_max opts dirRel rest
            { addItem st (.fileFrag (joinRel dirRel name) fd.size
                (finalContent opts fd)) with processed := st.processed + 1 }
            hN (by simpa [addItem] using hlt)
          simp only [addItem] at ih
          simp only [eligibleLevel, helig, if_pos, addItem]
          omega
        · have hp : st.processed = opts.maxFiles := by omega
          by_cases h0 : st.omitted = 0
          · rw [show filesPhase opts dirRel (.cons (.file name fd) rest) st =
                filesPhase opts dirRel rest (stepFile opts (joinRel dirRel name) fd st)
              from rfl]
            rw [stepFile_of_first_omit opts (joinRel dirRel name) fd st helig hN
              (by omega) h0]
            have ih := filesPhase_max opts dirRel rest
              (addItem { st with omitted := 1 } (.cutoffMarker (joinRel dirRel name) fd.size))
              hN (by simpa [addItem] using hle)
            simp only [addItem] at ih
            simp only [eligibleLevel, helig, if_pos, addItem]
            omega
          · rw [show filesPhase opts dirRel (.cons (.file name fd) rest) st =
                filesPhase opts dirRel rest (stepFile opts (joinRel dirRel name) fd st)
              from rfl]
            rw [stepFile_of_later_omit opts (joinRel dirRel name) fd st helig hN
              (by omega) h0]
            have ih := filesPhase_max opts dirRel rest
              { st with omitted := st.omitted + 1 } hN (by simpa using hle)
            dsimp only at ih
            simp only [eligibleLevel, helig, if_pos]
            omega
      · have helig' : eligibleFile opts (joinRel dirRel name) fd = false := by
          simpa using helig
        rw [show filesPhase opts dirRel (.cons (.file name fd) rest) st =
            filesPhase opts dirRel rest (stepFile opts (joinRel dirRel name) fd st)
          from rfl]
        rw [stepFile_of_ineligible opts (joinRel dirRel name) fd st helig']
        have ih := filesPhase_max opts dirRel rest
          { st with skipped := st.skipped + 1 } hN (by simpa using hle)
        dsimp only at ih
        simp only [eligibleLevel, helig', if_neg, Bool.false_eq_true, if_false]
        omega
    | dir name listable children =>
      have ih := filesPhase_max opts dirRel rest st hN hle
      simp only [filesPhase, eligibleLevel]
      omega
    | other name =>
      have ih := filesPhase_max opts dirRel rest st hN hle
      simp only [filesPhase, eligibleLevel]
      omega

mutual
/-- The second loop appends only walk chunks, at the end of the output. -/
theorem subdirsPhase_output (opts : Options) (dirRel : String) (es : FsEntries)
    (st st' : WalkState) (h : subdirsPhase opts dirRel es st = .ok st') :
    ∃ ext, st'.output = st.output ++ ext ∧ ∀ i ∈ ext, isWalkItem i = true := by
  cases es with
  | nil =>
    simp only [subdirsPhase, Except.ok.injEq] at h
    subst h
    exact ⟨[], by simp⟩
  | cons e rest =>
    rcases he : subdirStep opts dirRel e st with u | st1 <;>
      simp only [subdirsPhase] at h <;> rw [he] at h
    · simp at h
    · obtain ⟨e1, he1, hall1⟩ := subdirStep_output opts dirRel e st st1 he
      obtain ⟨e2, he2, hall2⟩ := subdirsPhase_output opts dirRel rest st1 st' h
      refine ⟨e1 ++ e2, ?_, ?_⟩
      · rw [he2, he1, List.append_assoc]
      · intro i hi
        rcases List.mem_append.mp hi with hi | hi
        · exact hall1 i hi
        · exact hall2 i hi
/-- One entry of the second loop appends only walk chunks. -/
theorem subdirStep_output (opts : Options) (dirRel : String) (e : FsEntry)
    (st st' : WalkState) (h : subdirStep opts dirRel e st = .ok st') :
    ∃ ext, st'.output = st.output ++ ext ∧ ∀ i ∈ ext, isWalkItem i = true := by
  cases e with
  | file name fd =>
    simp only [subdirStep, Except.ok.injEq] at h
    subst h
    exact ⟨[], by simp⟩
  | other name =>
    simp only [subdirStep, Except.ok.injEq] at h
    subst h
    exact ⟨[], by simp⟩
  | dir name listable children =>
    simp only [subdirStep] at h
    by_cases hig : isIgnored opts (joinRel dirRel name) = true
    · rw [if_pos hig] at h
      simp only [Except.ok.injEq] at h
      subst h
      exact ⟨[], by simp⟩
    · rw [if_neg hig] at h
      cases listable with
      | false => simp at h
      | true =>
        simp only [if_pos rfl] at h
        obtain ⟨e1, he1, hall1⟩ := filesPhase_output opts (joinRel dirRel name)
          children (addItem st (.dirHeader (joinRel dirRel name)))
        obtain ⟨e2, he2, hall2⟩ := subdirsPhase_output opts (joinRel dirRel name)
          children (filesPhase opts (joinRel dirRel name) children
            (addItem st (.dirHeader (joinRel dirRel name)))) st' h
        refine ⟨.dirHeader (joinRel dirRel name) :: (e1 ++ e2), ?_, ?_⟩
        · rw [he2, he1]
          simp [addItem]
        · intro i hi
          rcases List.mem_cons.mp hi with hi | hi
          · subst hi
            simp [isWalkItem, isDirHead]
          · rcases List.mem_append.mp hi with hi | hi
            · have := hall1 i hi
              simp [isWalkItem, this]
            · exact hall2 i hi
end

mutual
/-- Fragment count growth equals processed-counter growth over the second
loop. -/
theorem subdirsPhase_frag (opts : Options) (dirRel : String) (es : FsEntries)
    (st st' : WalkState) (h : subdirsPhase opts dirRel es st = .ok st') :
    fragCount st'.output + st.processed = fragCount st.output + st'.processed := by
  cases es with
  | nil =>
    simp only [subdirsPhase, Except.ok.injEq] at h
    subst h
    simp
  | cons e rest =>
    rcases he : subdirStep opts dirRel e st with u | st1 <;>
      simp only [subdirsPhase] at h <;> rw [he] at h
    · simp at h
    · have h1 := subdirStep_frag opts dirRel e st st1 he
      have h2 := subdirsPhase_frag opts dirRel rest st1 st' h
      omega
/-- Fragment count growth over one entry of the second loop. -/
theorem subdirStep_frag (opts : Options) (dirRel : String) (e : FsEntry)
    (st st' : WalkState) (h : subdirStep opts dirRel e st = .ok st') :
    fragCount st'.output + st.processed = fragCount st.output + st'.processed := by
  cases e with
  | file name fd =>
    simp only [subdirStep, Except.ok.injEq] at h
    subst h
    simp
  | other name =>
    simp only [subdirStep, Except.ok.injEq] at h
    subst h
    simp
  | dir name listable children =>
    simp only [subdirStep] at h
    by_cases hig : isIgnored opts (joinRel dirRel name) = true
    · rw [if_pos hig] at h
      simp only [Except.ok.injEq] at h
      subst h
      simp
    · rw [if_neg hig] at h
      cases listable with
      | false => simp at h
      | true =>
        simp only [if_pos rfl] at h
        have h1 := filesPhase_frag opts (joinRel dirRel name) children
          (addItem st (.dirHeader (joinRel dirRel name)))
        have h2 := subdirsPhase_frag opts (joinRel dirRel name) children
          (filesPhase opts (joinRel dirRel name) children
            (addItem st (.dirHeader (joinRel dirRel name)))) st' h
        have hadd : fragCount (st.output ++ [OutputItem.dirHeader (joinRel dirRel name)]) =
            fragCount st.output := by
          simp [fragCount, List.countP_append, isFrag]
        simp only [addItem] at h1 h2 ⊢
        omega
end

mutual
/-- The cutoff-marker invariant is preserved by the second loop. -/
theorem subdirsPhase_cut (opts : Options) (dirRel : String) (es : FsEntries)
    (st st' : WalkState) (h : subdirsPhase opts dirRel es st = .ok st')
    (hc : cutCount st.output = min st.omitted 1) :
    cutCount st'.output = min st'.omitted 1 := by
  cases es with
  | nil =>
    simp only [subdirsPhase, Except.ok.injEq] at h
    subst h
    exact hc
  | cons e rest =>
    rcases he : subdirStep opts dirRel e st with u | st1 <;>
      simp only [subdirsPhase] at h <;> rw [he] at h
    · simp at h
    · exact subdirsPhase_cut opts dirRel rest st1 st' h
        (subdirStep_cut opts dirRel e st st1 he hc)
/-- The cutoff-marker invariant is preserved by one entry of the second
loop. -/
theorem subdirStep_cut (opts : Options) (dirRel : String) (e : FsEntry)
    (st st' : WalkState) (h : subdirStep opts dirRel e st = .ok st')
    (hc : cutCount st.output = min st.omitted 1) :
    cutCount st'.output = min st'.omitted 1 := by
  cases e with
  | file name fd =>
    simp only [subdirStep, Except.ok.injEq] at h
    subst h
    exact hc
  | other name =>
    simp only [subdirStep, Except.ok.injEq] at h
    subst h
    exact hc
  | dir name listable children =>
    simp only [subdirStep] at h
    by_cases hig : isIgnored opts (joinRel dirRel name) = true
    · rw [if_pos hig] at h
      simp only [Except.ok.injEq] at h
      subst h
      exact hc
    · rw [if_neg hig] at h
      cases listable with
      | false => simp at h
      | true =>
        simp only [if_pos rfl] at h
        have hadd : cutCount (addItem st (.dirHeader (joinRel dirRel name))).output =
            min (addItem st (.dirHeader (joinRel dirRel name))).omitted 1 := by
          simpa [addItem, cutCount, List.countP_append, isCutoff] using hc
        exact subdirsPhase_cut opts (joinRel dirRel name) children _ st' h
          (filesPhase_cut opts (joinRel dirRel name) children _ hadd)
end

mutual
/-- The max-files bookkeeping over the second loop. -/
theorem subdirsPhase_max (opts : Options) (dirRel : String) (es : FsEntries)
    (st st' : WalkState) (hN : opts.maxFiles ≠ 0)
    (h : subdirsPhase opts dirRel es st = .ok st')
    (hle : st.processed ≤ opts.maxFiles) :
    st'.processed = min opts.maxFiles (st.processed + dirsEligCount opts dirRel es) ∧
      st'.omitted = st.omitted + (st.processed + dirsEligCount opts dirRel es -
        min opts.maxFiles (st.processed + dirsEligCount opts dirRel es)) := by
  cases es with
  | nil =>
    simp only [subdirsPhase, Except.ok.injEq] at h
    subst h
    simp only [dirsEligCount]
    omega
  | cons e rest =>
    rcases he : subdirStep opts dirRel e st with u | st1 <;>
      simp only [subdirsPhase] at h <;> rw [he] at h
    · simp at h
    · have h1 := subdirStep_max opts dirRel e st st1 hN he hle
      have h2 := subdirsPhase_max opts dirRel rest st1 st' hN h (by omega)
      simp only [dirsEligCount]
      omega
/-- The max-files bookkeeping over one entry of the second loop. -/
theorem subdirStep_max (opts : Options) (dirRel : String) (e : FsEntry)
    (st st' : WalkState) (hN : opts.maxFiles ≠ 0)
    (h : subdirStep opts dirRel e st = .ok st')
    (hle : st.processed ≤ opts.maxFiles) :
    st'.processed = min opts.maxFiles (st.processed + dirsEligCountEntry opts dirRel e) ∧
      st'.omitted = st.omitted + (st.processed + dirsEligCountEntry opts dirRel e -
        min opts.maxFiles (st.processed + dirsEligCountEntry opts dirRel e)) := by
  cases e with
  | file name fd =>
    simp only [subdirStep, Except.ok.injEq] at h
    subst h
    simp only [dirsEligCountEntry]
    omega
  | other name =>
    simp only [subdirStep, Except.ok.injEq] at h
    subst h
    simp only [dirsEligCountEntry]
    omega
  | dir name listable children =>
    simp only [subdirStep] at h
    by_cases hig : isIgnored opts (joinRel dirRel name) = true
    · rw [if_pos hig] at h
      simp only [Except.ok.injEq] at h
      subst h
      simp only [dirsEligCountEntry, hig, if_pos]
      omega
    · rw [if_neg hig] at h
      cases listable with
      | false => simp at h
      | true =>
        simp only [if_pos rfl] at h
        have h1 := filesPhase_max opts (joinRel dirRel name) children
          (addItem st (.dirHeader (joinRel dirRel name))) hN
          (by simpa [addItem] using hle)
        have h2 := subdirsPhase_max opts (joinRel dirRel name) children
          (filesPhase opts (joinRel dirRel name) children
            (addItem st (.dirHeader (joinRel dirRel name)))) st' hN h
          (by omega)
        simp only [dirsEligCountEntry, if_neg hig]
        simp only [addItem] at h1 h2 ⊢
        omega
end

mutual
/-- The second loop succeeds exactly when every directory it enters is
listable, independently of the incoming state. -/
theorem subdirsPhase_ok (opts : Options) (dirRel : String) (es : FsEntries)
    (st : WalkState) :
    (∃ st', subdirsPhase opts dirRel es st = .ok st') ↔
      dirsListable opts dirRel es = true := by
  cases es with
  | nil =>
    simp [subdirsPhase, dirsListable]
  | cons e rest =>
    rcases he : subdirStep opts dirRel e st with u | st1
    · have hent : ¬ dirsListableEntry opts dirRel e = true := by
        intro hl
        obtain ⟨st1, hok⟩ := (subdirStep_ok opts dirRel e st).mpr hl
        rw [he] at hok
        exact absurd hok (by simp)
      constructor
      · rintro ⟨st', h⟩
        simp only [subdirsPhase] at h
        rw [he] at h
        simp at h
      · intro h
        simp only [dirsListable, Bool.and_eq_true] at h
        exact absurd h.1 hent
    · have hent : dirsListableEntry opts dirRel e = true :=
        (subdirStep_ok opts dirRel e st).mp ⟨st1, he⟩
      constructor
      · rintro ⟨st', h⟩
        simp only [subdirsPhase] at h
        rw [he] at h
        simp only [dirsListable, Bool.and_eq_true]
        exact ⟨hent, (subdirsPhase_ok opts dirRel rest st1).mp ⟨st', h⟩⟩
      · intro h
        simp only [dirsListable, Bool.and_eq_true] at h
        obtain ⟨st', h2⟩ := (subdirsPhase_ok opts dirRel rest st1).mpr h.2
        refine ⟨st', ?_⟩
        simp only [subdirsPhase]
        rw [he]
        exact h2
/-- One entry of the second loop succeeds exactly when every directory it
enters is listable. -/
theorem subdirStep_ok (opts : Options) (dirRel : String) (e : FsEntry)
    (st : WalkState) :
    (∃ st', subdirStep opts dirRel e st = .ok st') ↔
      dirsListableEntry opts dirRel e = true := by
  cases e with
  | file name fd => simp [subdirStep, dirsListableEntry]
  | other name => simp [subdirStep, dirsListableEntry]
  | dir name listable children =>
    by_cases hig : isIgnored opts (joinRel dirRel name) = true
    · simp [subdirStep, dirsListableEntry, hig]
    · cases listable with
      | false =>
        simp [subdirStep, dirsListableEntry, hig]
      | true =>
        have := subdirsPhase_ok opts (joinRel dirRel name) children
          (filesPhase opts (joinRel dirRel name) children
            (addItem st (.dirHeader (joinRel dirRel name))))
        simpa [subdirStep, dirsListableEntry, hig] using this
end

/-- `processFiles` succeeds exactly when the root and every visited
directory can be listed: a `fs.readdir` failure anywhere in the walk —
root or not — fails the whole run. -/
theorem processFiles_ok (opts : Options) (root : Option FsEntries) :
    (∃ r, processFiles opts root = .ok r) ↔ allListableRoot opts root = true := by
  cases root with
  | none => simp [processFiles, allListableRoot]
  | some es =>
    have h := subdirsPhase_ok opts "" es (filesPhase opts "" es initialState)
    constructor
    · rintro ⟨r, hr⟩
      simp only [processFiles, processDirectory] at hr
      rcases hw : subdirsPhase opts "" es (filesPhase opts "" es initialState) with u | st
      · rw [hw] at hr
        simp at hr
      · simpa [allListableRoot] using h.mp ⟨st, hw⟩
    · intro hl
      obtain ⟨st, hw⟩ := h.mpr (by simpa [allListableRoot] using hl)
      simp only [processFiles, processDirectory]
      rw [hw]
      exact ⟨_, rfl⟩

mutual
/-- Every non-ignored directory entry the second loop encounters has its
header in the final output. -/
theorem subdirsPhase_dirs (opts : Options) (dirRel : String) (es : FsEntries)
    (st st' : WalkState) (h : subdirsPhase opts dirRel es st = .ok st') :
    ∀ rel ∈ visitedDirs opts dirRel es, OutputItem.dirHeader rel ∈ st'.output := by
  cases es with
  | nil =>
    intro rel hrel
    simp [visitedDirs] at hrel
  | cons e rest =>
    rcases he : subdirStep opts dirRel e st with u | st1 <;>
      simp only [subdirsPhase] at h <;> rw [he] at h
    · simp at h
    · intro rel hrel
      simp only [visitedDirs, List.mem_append] at hrel
      rcases hrel with hrel | hrel
      · have h1 := subdirStep_dirs opts dirRel e st st1 he rel hrel
        obtain ⟨ext, hext, -⟩ := subdirsPhase_output opts dirRel rest st1 st' h
        rw [hext]
        exact List.mem_append_left _ h1
      · exact subdirsPhase_dirs opts dirRel rest st1 st' h rel hrel
/-- Every non-ignored directory entry one step encounters has its header in
the resulting output. -/
theorem subdirStep_dirs (opts : Options) (dirRel : String) (e : FsEntry)
    (st st' : WalkState) (h : subdirStep opts dirRel e st = .ok st') :
    ∀ rel ∈ visitedDirsEntry opts dirRel e, OutputItem.dirHeader rel ∈ st'.output := by
  cases e with
  | file name fd =>
    intro rel hrel
    simp [visitedDirsEntry] at hrel
  | other name =>
    intro rel hrel
    simp [visitedDirsEntry] at hrel
  | dir name listable children =>
    simp only [subdirStep] at h
    by_cases hig : isIgnored opts (joinRel dirRel name) = true
    · rw [if_pos hig] at h
      intro rel hrel
      simp [visitedDirsEntry, hig] at hrel
    · rw [if_neg hig] at h
      cases listable with
      | false => simp at h
      | true =>
        simp only [if_pos rfl] at h
        intro rel hrel
        simp only [visitedDirsEntry, if_neg hig, List.mem_cons] at hrel
        rcases hrel with hrel | hrel
        · subst hrel
          obtain ⟨e1, he1, -⟩ := filesPhase_output opts (joinRel dirRel name)
            children (addItem st (.dirHeader (joinRel dirRel name)))
          obtain ⟨e2, he2, -⟩ := subdirsPhase_output opts (joinRel dirRel name)
            children _ st' h
          rw [he2, he1]
          simp [addItem]
        · exact subdirsPhase_dirs opts (joinRel dirRel name) children _ st' h rel hrel
end

/-! ## Helper lemmas for the claim theorems -/

theorem fragPairs_length (items : List OutputItem) :
    (fragPairs items).length = fragCount items := by
  induction items with
  | nil => rfl
  | cons i rest ih =>
    cases i <;>
      simp [fragPairs, fragCount, List.filterMap_cons, List.countP_cons, isFrag] at ih ⊢ <;>
      omega

/-- Unpack a successful `processFiles` run into its final walk state. -/
theorem processFiles_destruct (opts : Options) (es : FsEntries) (r : RunResult)
    (h : processFiles opts (some es) = .ok r) :
    ∃ st, subdirsPhase opts "" es (filesPhase opts "" es initialState) = .ok st ∧
      r.processed = st.processed ∧ r.skipped = st.skipped ∧ r.omitted = st.omitted ∧
      r.output = (if st.omitted > 0 then st.output ++ [OutputItem.summary st.omitted]
        else st.output) := by
  simp only [processFiles, processDirectory] at h
  rcases hw : subdirsPhase opts "" es (filesPhase opts "" es initialState) with u | st
  · rw [hw] at h
    simp at h
  · rw [hw] at h
    refine ⟨st, rfl, ?_⟩
    by_cases h0 : st.omitted > 0
    · simp only [if_pos h0, addItem, Except.ok.injEq] at h
      subst h
      simp [h0]
    · simp only [if_neg h0, Except.ok.injEq] at h
      subst h
      simp [h0]

/-! ## Concrete inputs for witnesses and counterexamples -/

/-- 1 MB threshold, no truncation, no file limit, ignore `sub/**`. -/
def demoOpts : Options :=
  ⟨1, 1000000, false, false, 0, ["sub/**"]⟩

/-- The spec's three-file scenario tree: a text file, a binary file, and a
text file inside a subdirectory. -/
def demoTree : FsEntries := .ofList [
  .file "a.txt" ⟨5, false, "hello", none⟩,
  .file "b.bin" ⟨9, true, "\x00\x01", none⟩,
  .dir "sub" true (.ofList [.file "c.txt" ⟨5, false, "world", none⟩])]

/-- The result of running `processFiles demoOpts` on `demoTree`. -/
def demoRun : RunResult :=
  ⟨[.fileFrag "a.txt" 5 "hello", .dirHeader "sub"], 1, 2, 0⟩

/-- 1 MB threshold, `--max-files 1`, nothing ignored. -/
def w2Opts : Options :=
  ⟨1, 1000000, false, false, 1, []⟩

/-- Two eligible text files. -/
def w2Tree : FsEntries := .ofList [
  .file "a.txt" ⟨5, false, "alpha", none⟩,
  .file "b.txt" ⟨4, false, "beta", none⟩]

/-- The result of running `processFiles w2Opts` on `w2Tree`. -/
def w2Run : RunResult :=
  ⟨[.fileFrag "a.txt" 5 "alpha", .cutoffMarker "b.txt" 4, .summary 1], 1, 0, 1⟩

/-! ## Claim theorems -/

/-- **C1.**  For every run of the file-processing pipeline over a directory
tree, the final counters satisfy `processedCount + skippedCount +
omittedCount` = the total number of file entries visited during traversal;
directories are never counted in any of the three counters
(`countVisitedFilesRoot` counts exactly the `file` entries of every
traversed listing, and nothing else). -/
theorem claim1_counter_partition (opts : Options) (root : Option FsEntries)
    (r : RunResult) (h : processFiles opts root = .ok r) :
    r.processed + r.skipped + r.omitted = countVisitedFilesRoot opts root := by
  cases root with
  | none => simp [processFiles] at h
  | some es =>
    obtain ⟨st, hw, hp, hs, ho, -⟩ := processFiles_destruct opts es r h
    have h1 := filesPhase_sum opts "" es initialState
    have h2 := subdirsPhase_sum opts "" es (filesPhase opts "" es initialState) st hw
    simp only [initialState] at h1 h2
    simp only [countVisitedFilesRoot, countVisitedFiles]
    omega

/-- Witness for C1 on the three-file scenario tree. -/
theorem claim1_counter_partition_witness :
    demoRun.processed + demoRun.skipped + demoRun.omitted =
      countVisitedFilesRoot demoOpts (some demoTree) :=
  claim1_counter_partition demoOpts (some demoTree) demoRun rfl

/-- **C2.**  For every run with `maxFiles = N > 0`: exactly
`min N eligible` files are processed, so at most `N` per-file content
fragments appear in the aggregate; `omittedCount` equals the total number of
eligible (non-ignored, non-skipped) files minus the processed count — i.e.
`eligible - N` whenever eligible files exceed `N` — because traversal
continues over the remaining entries past the cutoff, counting but not
emitting them; and a summary line reporting `omittedCount` is the last chunk
of the aggregate exactly when `omittedCount` is nonzero. -/
theorem claim2_max_files (opts : Options) (root : Option FsEntries)
    (r : RunResult) (hN : opts.maxFiles ≠ 0)
    (h : processFiles opts root = .ok r) :
    r.processed = min opts.maxFiles (eligibleCountRoot opts root) ∧
      r.omitted = eligibleCountRoot opts root - r.processed ∧
      (fragPairs r.output).length = r.processed ∧
      r.processed ≤ opts.maxFiles ∧
      (r.omitted > 0 → r.output.getLast? = some (.summary r.omitted)) ∧
      (r.omitted = 0 → ∀ n, OutputItem.summary n ∉ r.output) := by
  cases root with
  | none => simp [processFiles] at h
  | some es =>
    obtain ⟨st, hw, hp, hs, ho, hout⟩ := processFiles_destruct opts es r h
    have h1 := filesPhase_max opts "" es initialState hN (by simp [initialState])
    have h2 := subdirsPhase_max opts "" es (filesPhase opts "" es initialState)
      st hN hw (by omega)
    have hf1 := filesPhase_frag opts "" es initialState
    have hf2 := subdirsPhase_frag opts "" es (filesPhase opts "" es initialState)
      st hw
    obtain ⟨e1, he1, hall1⟩ := filesPhase_output opts "" es initialState
    obtain ⟨e2, he2, hall2⟩ := subdirsPhase_output opts "" es
      (filesPhase opts "" es initialState) st hw
    simp only [initialState] at h1 h2 hf1 hf2
    have hnil : fragCount ([] : List OutputItem) = 0 := rfl
    have hfrag_st : fragCount st.output = st.processed := by omega
    have hfragr : fragCount r.output = st.processed := by
      by_cases h0 : st.omitted > 0
      · rw [hout, if_pos h0]
        have hsum : fragCount (st.output ++ [OutputItem.summary st.omitted]) =
            fragCount st.output := by
          simp [fragCount, List.countP_append, isFrag]
        omega
      · rw [hout, if_neg h0]
        exact hfrag_st
    refine ⟨?_, ?_, ?_, ?_, ?_, ?_⟩
    · simp only [eligibleCountRoot, eligibleCount]
      omega
    · simp only [eligibleCountRoot, eligibleCount]
      omega
    · rw [fragPairs_length, hfragr, hp]
    · omega
    · intro hom
      rw [hout, if_pos (by omega)]
      simp [ho, List.getLast?_concat]
    · intro hom n hmem
      rw [hout, if_neg (by omega)] at hmem
      rw [he2, he1] at hmem
      simp only [initialState, List.nil_append, List.mem_append] at hmem
      rcases hmem with hmem | hmem
      · have := hall1 _ hmem
        simp [isFileItem] at this
      · have := hall2 _ hmem
        simp [isWalkItem, isFileItem, isDirHead] at this

/-- Witness for C2 on a two-file tree with `maxFiles = 1`. -/
theorem claim2_max_files_witness :
    w2Run.processed = min w2Opts.maxFiles (eligibleCountRoot w2Opts (some w2Tree)) ∧
      w2Run.omitted = eligibleCountRoot w2Opts (some w2Tree) - w2Run.processed ∧
      (fragPairs w2Run.output).length = w2Run.processed := by
  have h := claim2_max_files w2Opts (some w2Tree) w2Run (by decide) rfl
  exact ⟨h.1, h.2.1, h.2.2.1⟩


/-! ## Claims about directory-listing failures, traversal order, and
directory headers -/

/-- 1 MB threshold, no truncation, no limit, nothing ignored. -/
def cex6Opts : Options := ⟨1, 1000000, false, false, 0, []⟩

/-- A listable root holding a file, an unlistable subdirectory `bad`, and a
listable subdirectory `good` with one more text file. -/
def cex6Tree : FsEntries := .ofList [
  .file "a.txt" ⟨5, false, "hello", none⟩,
  .dir "bad" false .nil,
  .dir "good" true (.ofList [.file "c.txt" ⟨5, false, "world", none⟩])]

/-- **C6, counterexample.**  The root of `cex6Tree` is listable and only the
non-root subdirectory `bad` cannot be listed, yet the whole run fails — the
walk does not continue over the rest of the tree as the claim states. -/
theorem claim6_counterexample :
    processFiles cex6Opts (some cex6Tree) = .error () := rfl

/-- **C6 (amended).**  An error enumerating the children of any directory
the walk enters — the root or a descendant — propagates out of
`processDirectory` and fails the whole run; there is no subtree-local
recovery.  A run succeeds exactly when the root and every entered directory
can be listed. -/
theorem claim6_amended_listing_failure (opts : Options) (root : Option FsEntries) :
    (∃ r, processFiles opts root = .ok r) ↔ allListableRoot opts root = true :=
  processFiles_ok opts root

/-- Witness for the amended C6: the three-file scenario run succeeds, hence
every entered directory of it is listable. -/
theorem claim6_amended_listing_failure_witness :
    allListableRoot demoOpts (some demoTree) = true :=
  (claim6_amended_listing_failure demoOpts (some demoTree)).mp ⟨demoRun, rfl⟩

/-- **C8.**  Within every directory: the first loop appends all of that
directory's per-file chunks (and nothing else) before the second loop runs;
the second loop only appends after them; and an ignored subdirectory is
dropped before emitting its header or recursing, leaving the state
untouched. -/
theorem claim8_files_before_subdirs (opts : Options) (dirRel : String)
    (es : FsEntries) (st st' : WalkState)
    (h : processDirectory opts dirRel es st = .ok st') :
    (∃ fileItems, (filesPhase opts dirRel es st).output = st.output ++ fileItems ∧
        ∀ i ∈ fileItems, isFileItem i = true) ∧
      (∃ subItems, st'.output = (filesPhase opts dirRel es st).output ++ subItems ∧
        ∀ i ∈ subItems, isWalkItem i = true) ∧
      (∀ name listable children st0,
        isIgnored opts (joinRel dirRel name) = true →
          subdirStep opts dirRel (.dir name listable children) st0 = .ok st0) := by
  refine ⟨filesPhase_output opts dirRel es st, ?_, ?_⟩
  · exact subdirsPhase_output opts dirRel es _ st'
      (by simpa [processDirectory] using h)
  · intro name listable children st0 hig
    simp [subdirStep, hig]

/-- 1 MB threshold, ignore pattern `sub` (which does match the directory
path `sub`). -/
def w8Opts : Options := ⟨1, 1000000, false, false, 0, ["sub"]⟩

/-- A text file plus a subdirectory that the pattern `sub` ignores. -/
def w8Tree : FsEntries := .ofList [
  .file "a.txt" ⟨5, false, "hi", none⟩,
  .dir "sub" true (.ofList [.file "c.txt" ⟨4, false, "yo", none⟩])]

/-- Final state of walking `w8Tree` under `w8Opts`. -/
def w8St : WalkState := ⟨[.fileFrag "a.txt" 5 "hi"], 1, 0, 0⟩

/-- Witness for C8: on a concrete run, the ignored directory `sub`
contributes nothing. -/
theorem claim8_files_before_subdirs_witness :
    subdirStep w8Opts ""
      (.dir "sub" true (.ofList [.file "c.txt" ⟨4, false, "yo", none⟩]))
      initialState = .ok initialState := by
  have h := claim8_files_before_subdirs w8Opts "" w8Tree initialState w8St rfl
  exact h.2.2 "sub" true (.ofList [.file "c.txt" ⟨4, false, "yo", none⟩])
    initialState (by decide)

/-! ## Rendered-text helpers -/

theorem foldl_append_data (l : List String) (s : String) :
    (l.foldl (· ++ ·) s).data = s.data ++ (l.map String.data).flatten := by
  induction l generalizing s with
  | nil => simp
  | cons x xs ih => simp [ih, String.data_append, List.append_assoc]

theorem aggregatedText_data (items : List OutputItem) :
    (aggregatedText items).data =
      (items.map fun i => (renderItem i).data).flatten := by
  unfold aggregatedText String.join
  rw [foldl_append_data]
  simp [List.map_map]
  rfl

/-- Every chunk of the output occurs verbatim inside the aggregated text. -/
theorem mem_output_occurs (items : List OutputItem) (i : OutputItem)
    (hi : i ∈ items) :
    ∃ pre post, (aggregatedText items).data =
      pre ++ (renderItem i).data ++ post := by
  obtain ⟨s, t, rfl⟩ := List.append_of_mem hi
  refine ⟨(s.map fun j => (renderItem j).data).flatten,
    (t.map fun j => (renderItem j).data).flatten, ?_⟩
  rw [aggregatedText_data]
  simp [List.append_assoc]

/-- **C10.**  For every non-ignored subdirectory encountered during
traversal, the output contains its directory-header chunk, and the
aggregated text contains the marker `"\n**** Directory: <relativePath>"`
verbatim — whether or not any file inside that subdirectory was
processed. -/
theorem claim10_directory_markers (opts : Options) (root : Option FsEntries)
    (r : RunResult) (h : processFiles opts root = .ok r) :
    ∀ rel ∈ visitedDirsRoot opts root,
      OutputItem.dirHeader rel ∈ r.output ∧
      ∃ pre post, (aggregatedText r.output).data =
        pre ++ ("\n" ++ "**** Directory: " ++ rel).data ++ post := by
  cases root with
  | none => simp [processFiles] at h
  | some es =>
    obtain ⟨st, hw, -, -, -, hout⟩ := processFiles_destruct opts es r h
    intro rel hrel
    have hmem : OutputItem.dirHeader rel ∈ st.output :=
      subdirsPhase_dirs opts "" es _ st hw rel
        (by simpa [visitedDirsRoot] using hrel)
    have hmem2 : OutputItem.dirHeader rel ∈ r.output := by
      rw [hout]
      split
      · exact List.mem_append_left _ hmem
      · exact hmem
    refine ⟨hmem2, ?_⟩
    simpa [renderItem] using mem_output_occurs r.output _ hmem2

/-- No ignore patterns, 1 MB threshold. -/
def w10Opts : Options := ⟨1, 1000000, false, false, 0, []⟩

/-- A tree whose only entry is an empty subdirectory. -/
def w10Tree : FsEntries := .ofList [.dir "emptydir" true .nil]

/-- Result of running `processFiles w10Opts` on `w10Tree`: a directory
header and no file fragments at all. -/
def w10Run : RunResult := ⟨[.dirHeader "emptydir"], 0, 0, 0⟩

/-- Witness for C10: the empty subdirectory still gets its header chunk. -/
theorem claim10_directory_markers_witness :
    OutputItem.dirHeader "emptydir" ∈ w10Run.output :=
  (claim10_directory_markers w10Opts (some w10Tree) w10Run rfl "emptydir"
    (by decide)).1



/-! ## Claims about the per-file check order, size threshold, and ignore
patterns -/

/-- Byte threshold 5, truncation off. -/
def cex5Opts : Options := ⟨1, 5, false, false, 0, []⟩

/-- Byte threshold 5, truncation off, ignore `big.txt`. -/
def cex5bOpts : Options := ⟨1, 5, false, false, 0, ["big.txt"]⟩

/-- **C5, counterexample.**  A file that is both binary and oversized takes
the size branch, not the binary branch (the size check runs first in the
source); and an oversized file matching an ignore pattern also takes the
size branch (the ignore check runs after both). -/
theorem claim5_counterexample :
    classify cex5Opts "b.bin" ⟨10, true, "0123456789", none⟩ false =
        .skipLarge ∧
      Outcome.skipLarge ≠ Outcome.skipBinary ∧
      classify cex5bOpts "big.txt" ⟨10, false, "0123456789", none⟩ false =
        .skipLarge ∧
      Outcome.skipLarge ≠ Outcome.skipIgnored := by
  refine ⟨by decide, by decide, by decide, by decide⟩

/-- **C5 (amended).**  With `includeAll = false`, the checks run in this
order: size first (`skip-large` when oversized and truncation is off,
whatever the binary status or ignore patterns say), then the binary probe
(`skip-binary`, whatever the ignore patterns say), and only then the ignore
check (`skip-ignored`). -/
theorem claim5_amended_check_order (opts : Options) (rel : String)
    (fd : FileData) (pc : Bool) (hIA : opts.includeAll = false)
    (hstat : fd.err ≠ some .statE) :
    (fd.size > opts.thresholdBytes ∧ opts.truncate = false →
        classify opts rel fd pc = .skipLarge) ∧
      (¬(fd.size > opts.thresholdBytes ∧ opts.truncate = false) →
        fd.err ≠ some .probeE →
        (fd.binary = true → classify opts rel fd pc = .skipBinary) ∧
          (fd.binary = false → isIgnored opts rel = true →
            classify opts rel fd pc = .skipIgnored)) := by
  unfold classify
  refine ⟨fun hsz => ?_, fun hsz hprobe => ⟨fun hbin => ?_, fun hbin hig => ?_⟩⟩ <;>
    split_ifs <;> simp_all

/-- Witness for the amended C5: the binary-and-oversized file of the
counterexample is classified by the size branch. -/
theorem claim5_amended_check_order_witness :
    classify cex5Opts "b.bin" ⟨10, true, "0123456789", none⟩ false =
      .skipLarge :=
  (claim5_amended_check_order cex5Opts "b.bin" ⟨10, true, "0123456789", none⟩
    false rfl (by decide)).1 ⟨by decide, rfl⟩

/-- Byte threshold 5, truncation on. -/
def cex3Opts : Options := ⟨1, 5, false, true, 0, []⟩

/-- **C3, counterexample.**  With `truncateOversized = true`, an oversized
*binary* file is still skipped as binary, not emitted truncated, contrary
to the claim's "every file whose size exceeds the threshold …
is classified include-truncated". -/
theorem claim3_counterexample :
    classify cex3Opts "b.bin" ⟨10, true, "0123456789", none⟩ false =
        .skipBinary ∧
      ∀ c, Outcome.skipBinary ≠ Outcome.processed c := by
  refine ⟨by decide, fun c h => by cases h⟩

/-- **C3 (amended).**  For an oversized file (stat succeeded): with
`includeAll = false` and `truncateOversized = false` it is skip-large; with
`truncateOversized = true`, *if* it also passes the binary, ignore, read
and cutoff checks, it is emitted with the first `thresholdBytes` UTF-16
units of its decoded content — exactly `min thresholdBytes (decoded
length)` units, which is exactly `thresholdBytes` whenever the decoded
content is at least that long — followed by the truncation marker. -/
theorem claim3_amended_threshold (opts : Options) (rel : String)
    (fd : FileData) (pc : Bool) (hsize : fd.size > opts.thresholdBytes)
    (hstat : fd.err ≠ some FileErr.statE) :
    (opts.includeAll = false → opts.truncate = false →
        classify opts rel fd pc = .skipLarge) ∧
      (opts.truncate = true → fd.err = none →
        (opts.includeAll = true ∨ fd.binary = false) →
        isIgnored opts rel = false → pc = false →
        classify opts rel fd pc =
          .processed (String.mk (fd.content.data.take opts.thresholdBytes) ++
            "\n\n[Truncated: File size exceeds " ++ toString opts.thresholdMB ++
            " MB]\n") ∧
          (fd.content.data.take opts.thresholdBytes).length =
            min opts.thresholdBytes fd.content.data.length) := by
  constructor
  · intro hIA htr
    unfold classify
    split_ifs <;> simp_all
  · intro htr herr hbin hig hpc
    constructor
    · unfold classify finalContent
      split_ifs <;> simp_all
    · simp [List.length_take]

/-- Witness for the amended C3: a 10-byte text file against a 5-byte
threshold is emitted with exactly 5 content characters plus the marker. -/
theorem claim3_amended_threshold_witness :
    classify cex3Opts "a.txt" ⟨10, false, "0123456789", none⟩ false =
        .processed ("01234" ++
          "\n\n[Truncated: File size exceeds " ++ toString (1 : Nat) ++ " MB]\n") ∧
      ("0123456789".data.take 5).length = 5 := by
  have h := (claim3_amended_threshold cex3Opts "a.txt"
    ⟨10, false, "0123456789", none⟩ false (by decide) (by decide)).2
    rfl rfl (Or.inr rfl) (by decide) rfl
  exact ⟨h.1, by decide⟩

/-- **C4, counterexample.**  With `ignorePatterns = ["sub/**"]` on the
three-file scenario tree the walker *does* descend into `sub` (its header
chunk is emitted) and counts `sub/c.txt` as skipped, so `skippedCount = 2`,
not the `1` (binary file only) the claim implies. -/
theorem claim4_counterexample :
    processFiles demoOpts (some demoTree) = .ok demoRun ∧
      demoRun.skipped = 2 ∧
      OutputItem.dirHeader "sub" ∈ demoRun.output := by
  refine ⟨rfl, rfl, by decide⟩

/-- **C4 (amended).**  A directory's subtree is pruned exactly when the
directory's *own* relative path matches an ignore pattern — then the entry
contributes nothing: no header, no recursion, no counter changes.  The
pattern `sub/**` does not match the directory path `sub` itself (while it
does match `sub/c.txt`), so it does not prune; the pattern `sub` does. -/
theorem claim4_amended_directory_pruning (opts : Options)
    (dirRel name : String) (listable : Bool) (children : FsEntries)
    (st : WalkState) (hig : isIgnored opts (joinRel dirRel name) = true) :
    subdirStep opts dirRel (.dir name listable children) st = .ok st ∧
      minimatch "sub" "sub/**" = false ∧
      minimatch "sub/c.txt" "sub/**" = true ∧
      minimatch "sub" "sub" = true := by
  refine ⟨by simp [subdirStep, hig], by decide, by decide, by decide⟩

/-- Witness for the amended C4: under the pattern `sub`, the directory
entry `sub` is dropped with the state unchanged. -/
theorem claim4_amended_directory_pruning_witness :
    subdirStep w8Opts "" (.dir "sub" true .nil) initialState =
      .ok initialState :=
  (claim4_amended_directory_pruning w8Opts "" "sub" true .nil initialState
    (by decide)).1

/-! ## Claim about the cutoff marker -/

/-- **C9.**  When the cutoff is crossed: the output holds exactly one
cutoff-marker chunk iff any file was omitted; the marker is appended at the
moment the first omitted file is met and carries that file's relative path
and size (its rendering holds the human-readable size); later omitted files
change only the counter; and a file whose read fails is counted skipped,
never omitted, whatever the cutoff state. -/
theorem claim9_cutoff_marker (opts : Options) (root : Option FsEntries)
    (r : RunResult) (h : processFiles opts root = .ok r) :
    cutCount r.output = (if r.omitted = 0 then 0 else 1) ∧
      (∀ rel fd st, eligibleFile opts rel fd = true → opts.maxFiles ≠ 0 →
        st.processed ≥ opts.maxFiles →
        (st.omitted = 0 →
          stepFile opts rel fd st =
            addItem { st with omitted := 1 } (.cutoffMarker rel fd.size)) ∧
        (st.omitted ≠ 0 →
          stepFile opts rel fd st = { st with omitted := st.omitted + 1 })) ∧
      (∀ rel fd st, fd.err = some .readE →
        stepFile opts rel fd st = { st with skipped := st.skipped + 1 }) := by
  refine ⟨?_, ?_, ?_⟩
  · cases root with
    | none => simp [processFiles] at h
    | some es =>
      obtain ⟨st, hw, -, -, ho, hout⟩ := processFiles_destruct opts es r h
      have h0 : cutCount initialState.output = min initialState.omitted 1 := rfl
      have h1 := filesPhase_cut opts "" es initialState h0
      have h2 := subdirsPhase_cut opts "" es (filesPhase opts "" es initialState)
        st hw h1
      have hsum : cutCount r.output = cutCount st.output := by
        rw [hout]
        split
        · simp [cutCount, List.countP_append, isCutoff]
        · rfl
      rw [hsum, ho, h2]
      rcases Nat.eq_zero_or_pos st.omitted with h0' | h0'
      · simp [h0']
      · have : st.omitted ≠ 0 := by omega
        simp [this]
        omega
  · intro rel fd st helig hN hge
    exact ⟨fun h0 => stepFile_of_first_omit opts rel fd st helig hN hge h0,
      fun h0 => stepFile_of_later_omit opts rel fd st helig hN hge h0⟩
  · intro rel fd st herr
    have : eligibleFile opts rel fd = false := by
      unfold eligibleFile classify
      split_ifs <;> simp_all
    exact stepFile_of_ineligible opts rel fd st this

/-- Witness for C9 on the `maxFiles = 1` two-file run: exactly one cutoff
marker chunk in the output. -/
theorem claim9_cutoff_marker_witness : cutCount w2Run.output = 1 := by
  have h := claim9_cutoff_marker w2Opts (some w2Tree) w2Run rfl
  simpa [w2Run] using h.1



/-! ## The aggregate parser (C7)

The spec posits "a consuming parser" that splits the aggregated text back
into per-file records by its `**** File:` delimiter lines.  `parseAggregate`
is that parser: split the text into lines, and read every line of the form
`"**** File: <path>, size: <size>"` as a `(path, size)` record. -/

/-- Lines of a character list. -/
def splitNl (l : List Char) : List (List Char) :=
  splitOnChar '\n' l

/-- Does the second list start with the first? -/
def listStartsWith : List Char → List Char → Bool
  | [], _ => true
  | _ :: _, [] => false
  | p :: ps, c :: cs => p == c && listStartsWith ps cs

/-- Split a list around the first occurrence of `sep`. -/
def splitAtSeq (sep : List Char) : List Char → Option (List Char × List Char)
  | [] => none
  | c :: rest =>
      if listStartsWith sep (c :: rest) then some ([], (c :: rest).drop sep.length)
      else
        match splitAtSeq sep rest with
        | some (pre, post) => some (c :: pre, post)
        | none => none

/-- The fragment-header marker. -/
def headerMarker : List Char := "**** File: ".data

/-- The separator between path and size in a header line. -/
def sizeSep : List Char := ", size: ".data

/-- Parse one line of the aggregate. -/
def parseHeaderLine (l : List Char) : Option (String × String) :=
  if listStartsWith headerMarker l then
    match splitAtSeq sizeSep (l.drop headerMarker.length) with
    | some (p, s) => some (String.mk p, String.mk s)
    | none => none
  else none

/-- Parse a list of lines. -/
def lineParse (ls : List (List Char)) : List (String × String) :=
  ls.filterMap parseHeaderLine

/-- The aggregate parser. -/
def parseAggregate (s : String) : List (String × String) :=
  lineParse (splitNl s.data)

/-! ### Splitting lemmas -/

theorem splitOnChar_ne_nil (sep : Char) (l : List Char) :
    splitOnChar sep l ≠ [] := by
  cases l with
  | nil => simp [splitOnChar]
  | cons c rest =>
    simp only [splitOnChar]
    split
    · simp
    · rcases h : splitOnChar sep rest with _ | ⟨h0, t⟩ <;> simp

theorem splitOnChar_append_sep (sep : Char) (a r : List Char) :
    splitOnChar sep (a ++ sep :: r) =
      splitOnChar sep a ++ splitOnChar sep r := by
  induction a with
  | nil => simp [splitOnChar]
  | cons c a ih =>
    by_cases hc : c = sep
    · subst hc
      simp [splitOnChar, ih]
    · simp only [List.cons_append, splitOnChar, if_neg hc, List.append_eq]
      rw [ih]
      rcases h : splitOnChar sep a with _ | ⟨h0, t⟩
      · exact absurd h (splitOnChar_ne_nil sep a)
      · simp [h]

theorem splitOnChar_of_not_mem (sep : Char) (l : List Char) (h : sep ∉ l) :
    splitOnChar sep l = [l] := by
  induction l with
  | nil => rfl
  | cons c rest ih =>
    simp only [List.mem_cons, not_or] at h
    have hcs : ¬ c = sep := fun hh => h.1 hh.symm
    simp [splitOnChar, if_neg hcs, ih h.2]

theorem splitNl_cons_nl (x : List Char) :
    splitNl ('\n' :: x) = [] :: splitNl x := by
  simp [splitNl, splitOnChar]

/-! ### Parser lemmas -/

theorem listStartsWith_self_append (p r : List Char) :
    listStartsWith p (p ++ r) = true := by
  induction p with
  | nil => rfl
  | cons c p ih => simp [listStartsWith, ih]

theorem splitAtSeq_boundary (pre post : List Char) (hpre : ',' ∉ pre) :
    splitAtSeq sizeSep (pre ++ (sizeSep ++ post)) = some (pre, post) := by
  induction pre with
  | nil =>
    have h1 : listStartsWith sizeSep (sizeSep ++ post) = true :=
      listStartsWith_self_append sizeSep post
    show splitAtSeq sizeSep (sizeSep ++ post) = some ([], post)
    rw [show sizeSep ++ post = ',' :: (" size: ".data ++ post) from rfl]
    simp only [splitAtSeq]
    rw [if_pos (by exact_mod_cast h1)]
    show some ([], (sizeSep ++ post).drop sizeSep.length) = some ([], post)
    rw [List.drop_left]
  | cons c pre ih =>
    have hc : c ≠ ',' := fun h => hpre (h ▸ List.mem_cons_self c pre)
    have hnp : listStartsWith sizeSep (c :: (pre ++ (sizeSep ++ post))) = false := by
      rw [show sizeSep = ',' :: " size: ".data from rfl]
      simp only [listStartsWith, Bool.and_eq_false_iff]
      left
      simp [Ne.symm hc]
    show splitAtSeq sizeSep (c :: (pre ++ (sizeSep ++ post))) = some (c :: pre, post)
    simp only [splitAtSeq, hnp, Bool.false_eq_true, if_false]
    rw [ih fun hm => hpre (List.mem_cons_of_mem c hm)]

theorem parseHeaderLine_nil : parseHeaderLine [] = none := rfl

/-- A genuine header line parses to its `(path, size)` record, provided the
path holds no comma. -/
theorem parseHeaderLine_header (p s : List Char) (hp : ',' ∉ p) :
    parseHeaderLine (headerMarker ++ (p ++ (sizeSep ++ s))) =
      some (String.mk p, String.mk s) := by
  unfold parseHeaderLine
  rw [if_pos (by exact_mod_cast listStartsWith_self_append headerMarker _)]
  rw [List.drop_left, splitAtSeq_boundary p s hp]



/-- A directory-header line never parses as a file record: its sixth
character is `D`, the marker's is `F`. -/
theorem parseHeaderLine_dir (p : List Char) :
    parseHeaderLine ("**** Directory: ".data ++ p) = none := by
  unfold parseHeaderLine
  rw [show listStartsWith headerMarker ("**** Directory: ".data ++ p) = false from rfl]
  simp

theorem splitNl_append_sep (a r : List Char) :
    splitNl (a ++ '\n' :: r) = splitNl a ++ splitNl r :=
  splitOnChar_append_sep '\n' a r

theorem splitNl_no_nl (l : List Char) (h : '\n' ∉ l) : splitNl l = [l] :=
  splitOnChar_of_not_mem '\n' l h

/-- Every chunk's rendering begins with a newline. -/
theorem renderItem_head (i : OutputItem) :
    ∃ t, (renderItem i).data = '\n' :: t := by
  have key : ∀ l : List Char, l.head? = some '\n' → ∃ t, l = '\n' :: t := by
    intro l h
    cases l with
    | nil => simp at h
    | cons c t =>
      simp only [List.head?_cons, Option.some.injEq] at h
      exact ⟨t, by rw [h]⟩
  apply key
  cases i <;>
    simp [renderItem, String.data_append, show ("\n" : String).data = ['\n'] from rfl,
      List.append_assoc, List.singleton_append, List.head?_cons]

/-- Chunks a cutoff-free aggregate may hold, with delimiter-safe path, size
and content strings: no newline or comma in the path or rendered size, and
no content line that parses as a header line. -/
def cleanItem : OutputItem → Bool
  | .fileFrag p sz c =>
      decide ('\n' ∉ p.data) && decide (',' ∉ p.data) &&
        decide ('\n' ∉ (formatFileSize sz).data) &&
        decide (',' ∉ (formatFileSize sz).data) &&
        ((splitNl c.data).all fun l => decide (parseHeaderLine l = none))
  | .dirHeader p => decide ('\n' ∉ p.data)
  | .cutoffMarker _ _ => false
  | .summary _ => false



theorem lineParse_nil_cons (ls : List (List Char)) :
    lineParse ([] :: ls) = lineParse ls := by
  simp [lineParse, List.filterMap_cons, parseHeaderLine_nil]

theorem lineParse_append (xs ys : List (List Char)) :
    lineParse (xs ++ ys) = lineParse xs ++ lineParse ys := by
  simp [lineParse, List.filterMap_append]

/-- Parsing the concatenated renderings of clean chunks recovers exactly
the fragment records, in order. -/
theorem lineParse_flatten (items : List OutputItem)
    (hclean : ∀ i ∈ items, cleanItem i = true) :
    lineParse (splitNl ((items.map fun i => (renderItem i).data).flatten)) =
      fragPairs items := by
  induction items with
  | nil => rfl
  | cons i rest ih =>
    have hi := hclean i (List.mem_cons_self i rest)
    have ihr := ih fun j hj => hclean j (List.mem_cons_of_mem i hj)
    have hRshape :
        (rest.map fun i => (renderItem i).data).flatten = [] ∨
          ∃ t, (rest.map fun i => (renderItem i).data).flatten = '\n' :: t := by
      rcases rest with _ | ⟨j, js⟩
      · left; rfl
      · right
        obtain ⟨t, ht⟩ := renderItem_head j
        exact ⟨t ++ (js.map fun i => (renderItem i).data).flatten, by simp [ht]⟩
    simp only [List.map_cons, List.flatten_cons]
    cases i with
    | cutoffMarker p sz => simp [cleanItem] at hi
    | summary n => simp [cleanItem] at hi
    | fileFrag p sz c =>
      simp only [cleanItem, Bool.and_eq_true, List.all_eq_true,
        decide_eq_true_eq] at hi
      obtain ⟨⟨⟨⟨hp1, hp2⟩, hs1⟩, hs2⟩, hcl⟩ := hi
      have hdata : (renderItem (OutputItem.fileFrag p sz c)).data ++
            (rest.map fun i => (renderItem i).data).flatten =
          '\n' :: (headerMarker ++ (p.data ++ (sizeSep ++
            ((formatFileSize sz).data ++ '\n' :: '\n' :: (c.data ++ '\n' ::
              (rest.map fun i => (renderItem i).data).flatten))))) := by
        simp only [renderItem, String.data_append, List.append_assoc,
          List.cons_append, List.singleton_append]
        rfl
      rw [hdata, splitNl_cons_nl]
      have e1 := splitNl_append_sep
        (headerMarker ++ (p.data ++ (sizeSep ++ (formatFileSize sz).data)))
        ('\n' :: (c.data ++ '\n' :: (rest.map fun i => (renderItem i).data).flatten))
      simp only [List.append_assoc] at e1
      rw [e1]
      have hn : '\n' ∉ headerMarker ++ (p.data ++ (sizeSep ++ (formatFileSize sz).data)) := by
        have h1 : '\n' ∉ headerMarker := by decide
        have h2 : '\n' ∉ sizeSep := by decide
        simp [List.mem_append, h1, h2, hp1, hs1]
      rw [splitNl_no_nl _ hn, splitNl_cons_nl,
        splitNl_append_sep c.data ((rest.map fun i => (renderItem i).data).flatten)]
      rw [lineParse_nil_cons, lineParse_append, lineParse_nil_cons, lineParse_append]
      have hhl : lineParse [headerMarker ++ (p.data ++ (sizeSep ++ (formatFileSize sz).data))] =
          [(p, formatFileSize sz)] := by
        unfold lineParse
        rw [List.filterMap_cons,
          parseHeaderLine_header p.data (formatFileSize sz).data hp2]
        rfl
      have hcl0 : lineParse (splitNl c.data) = [] := by
        simp only [lineParse]
        exact List.filterMap_eq_nil.mpr hcl
      rw [hhl, hcl0, ihr]
      simp [fragPairs, List.filterMap_cons]
    | dirHeader p =>
      simp only [cleanItem, decide_eq_true_eq] at hi
      have hdata : (renderItem (OutputItem.dirHeader p)).data ++
            (rest.map fun i => (renderItem i).data).flatten =
          '\n' :: ("**** Directory: ".data ++ (p.data ++
            (rest.map fun i => (renderItem i).data).flatten)) := by
        simp only [renderItem, String.data_append, List.append_assoc,
          List.cons_append, List.singleton_append]
        rfl
      rw [hdata, splitNl_cons_nl]
      have hDn : '\n' ∉ "**** Directory: ".data ++ p.data := by
        have h1 : '\n' ∉ "**** Directory: ".data := by decide
        simp [List.mem_append, h1, hi]
      have hD0 : lineParse ["**** Directory: ".data ++ p.data] = [] := by
        unfold lineParse
        rw [List.filterMap_cons, parseHeaderLine_dir]
        rfl
      rcases hRshape with hR0 | ⟨t, hRt⟩
      · rw [hR0]
        simp only [List.append_nil]
        rw [splitNl_no_nl _ hDn, lineParse_nil_cons, hD0]
        rw [hR0] at ihr
        have hfr : fragPairs rest = [] := by
          rw [← ihr]
          rfl
        have hskip : fragPairs (OutputItem.dirHeader p :: rest) = fragPairs rest := by
          simp [fragPairs, List.filterMap_cons]
        rw [hskip, hfr]
      · rw [hRt]
        have e1 := splitNl_append_sep ("**** Directory: ".data ++ p.data) t
        simp only [List.append_assoc] at e1
        rw [e1, splitNl_no_nl _ hDn]
        rw [lineParse_nil_cons, lineParse_append, hD0]
        rw [hRt, splitNl_cons_nl, lineParse_nil_cons] at ihr
        simp [fragPairs, List.filterMap_cons, ihr]

/-- 1 MB threshold, nothing ignored, no limit. -/
def cex7Opts : Options := ⟨1, 1000000, false, false, 0, []⟩

/-- One text file whose *content* embeds a line in the fragment-header
format. -/
def cex7Tree : FsEntries := .ofList [
  .file "a.txt" ⟨28, false, "x\n**** File: fake, size: 9 B", none⟩]

/-- The run over `cex7Tree`. -/
def cex7Run : RunResult :=
  ⟨[.fileFrag "a.txt" 28 "x\n**** File: fake, size: 9 B"], 1, 0, 0⟩

/-- **C7, counterexample.**  The delimiter format is not robust against
arbitrary file content: a content line in the header format parses as an
extra record, so parsing does not recover the rendered `(path, size)`
sequence. -/
theorem claim7_counterexample :
    processFiles cex7Opts (some cex7Tree) = .ok cex7Run ∧
      parseAggregate (aggregatedText cex7Run.output) ≠ fragPairs cex7Run.output := by
  refine ⟨rfl, by decide⟩

/-- **C7 (amended).**  For every run in which the `maxFiles` cutoff is not
hit (the cutoff marker shares the `**** File:` header format and would
parse as an extra record), and whose processed paths, rendered sizes and
contents do not collide with the delimiter format — no newline or comma in
a path or rendered size, no content line parsing as a header line —
parsing the aggregated text recovers exactly the ordered `(relativePath,
renderedSize)` records of the emitted fragments. -/
theorem claim7_amended_roundtrip (opts : Options) (root : Option FsEntries)
    (r : RunResult) (h : processFiles opts root = .ok r)
    (hom : r.omitted = 0)
    (hclean : ∀ p sz c, OutputItem.fileFrag p sz c ∈ r.output →
      '\n' ∉ p.data ∧ ',' ∉ p.data ∧ '\n' ∉ (formatFileSize sz).data ∧
        ',' ∉ (formatFileSize sz).data ∧
        ∀ l ∈ splitNl c.data, parseHeaderLine l = none)
    (hcleanD : ∀ p, OutputItem.dirHeader p ∈ r.output → '\n' ∉ p.data) :
    parseAggregate (aggregatedText r.output) = fragPairs r.output := by
  have hitems : ∀ i ∈ r.output, cleanItem i = true := by
    cases root with
    | none => simp [processFiles] at h
    | some es =>
      obtain ⟨st, hw, -, -, ho, hout⟩ := processFiles_destruct opts es r h
      have hom' : st.omitted = 0 := by omega
      have hout' : r.output = st.output := by
        rw [hout, if_neg (by omega)]
      obtain ⟨e1, he1, hall1⟩ := filesPhase_output opts "" es initialState
      obtain ⟨e2, he2, hall2⟩ := subdirsPhase_output opts "" es _ st hw
      have hcut0 : cutCount st.output = 0 := by
        have h0 : cutCount initialState.output = min initialState.omitted 1 := rfl
        have h1 := filesPhase_cut opts "" es initialState h0
        have h2 := subdirsPhase_cut opts "" es _ st hw h1
        rw [h2, hom']
        rfl
      intro i hi0
      have hi : i ∈ st.output := by rwa [hout'] at hi0
      have hnc : isCutoff i = false := by
        by_contra hic
        have hpos : 0 < cutCount st.output := by
          unfold cutCount
          refine List.countP_pos_iff.mpr ⟨i, hi, by simpa using hic⟩
        omega
      have hwk : isWalkItem i = true := by
        rw [he2, he1] at hi
        simp only [initialState, List.nil_append, List.mem_append] at hi
        rcases hi with hi | hi
        · simp [isWalkItem, hall1 i hi]
        · exact hall2 i hi
      cases i with
      | fileFrag p sz c =>
        obtain ⟨hc1, hc2, hc3, hc4, hc5⟩ := hclean p sz c hi0
        simp only [cleanItem, Bool.and_eq_true, decide_eq_true_eq,
          List.all_eq_true]
        exact ⟨⟨⟨⟨hc1, hc2⟩, hc3⟩, hc4⟩, fun l hl => by simp [hc5 l hl]⟩
      | dirHeader p =>
        simp only [cleanItem, decide_eq_true_eq]
        exact hcleanD p hi0
      | cutoffMarker p sz => simp [isCutoff] at hnc
      | summary n => simp [isWalkItem, isFileItem, isDirHead] at hwk
  rw [show parseAggregate (aggregatedText r.output) =
    lineParse (splitNl (aggregatedText r.output).data) from rfl]
  rw [aggregatedText_data]
  exact lineParse_flatten r.output hitems

/-- Witness for the amended C7: the three-file scenario aggregate parses
back to its single fragment record. -/
theorem claim7_amended_roundtrip_witness :
    parseAggregate (aggregatedText demoRun.output) = fragPairs demoRun.output := by
  refine claim7_amended_roundtrip demoOpts (some demoTree) demoRun rfl rfl ?_ ?_
  · intro p sz c hmem
    simp only [demoRun, List.mem_cons, List.not_mem_nil, or_false] at hmem
    rcases hmem with hmem | hmem
    · injection hmem with h1 h2 h3
      subst h1
      subst h2
      subst h3
      refine ⟨by decide, by decide, by decide, by decide, by decide⟩
    · exact OutputItem.noConfusion hmem
  · intro p hmem
    simp only [demoRun, List.mem_cons, List.not_mem_nil, or_false] at hmem
    rcases hmem with hmem | hmem
    · exact OutputItem.noConfusion hmem
    · injection hmem with h1
      subst h1
      decide


end Git2txt
